import Mathlib

/-
Verification of DirectStorageStream (ist namespace): a shallow embedding of
the chunked asynchronous read buffer (DStorageStreamBuf) and of the growable
memory-mapped stream buffer (MMapStreamBuf), with theorems about the
observable behaviour of their operations.

Modelling conventions:
* machine integers are Nat / Int; C++ size_t casts are modelled by
  reduction modulo 2^64 (toSizeT);
* the external DirectStorage engine is modelled by a fence oracle
  `ora : Nat -> Nat` giving the fence completed value observed when the
  consumer returns from waiting on the j-th chunk event; legality of an
  oracle (LegalOracle) captures exactly what the engine guarantees: the
  fence is monotone, only takes enqueued signal values, is at least the
  awaited chunk's signal and at most the file size;
* the background thread of do_read is modelled by environment steps on the
  shared atomic status (EnvStatusStep); consumer calls sample the status
  once at entry (call-granularity interleaving);
* the fence object exists whenever a chunk event is waitable in this
  interleaving model, so the null-fence conditional of wait_next_block
  always takes the fence branch here.
-/

namespace ist

/-- C++ size_t cast of a pointer difference: reduction modulo 2^64. -/
def toSizeT (x : Int) : Nat := (x % (2 ^ 64 : Int)).toNat

/-- status_code of DStorageStreamBuf (values as in the C++ enum). -/
inductive status_code where
  | idle
  | launched
  | reading
  | completed
  | error_dll_not_found
  | error_file_open_failed
  | error_unknown
deriving DecidableEq, Repr

/-- Underlying integer values of the status_code enum. -/
def status_code.toInt : status_code → Int
  | .idle => 0
  | .launched => 1
  | .reading => 2
  | .completed => 3
  | .error_dll_not_found => -10000
  | .error_file_open_failed => -9999
  | .error_unknown => -9998

/-- Consumer-visible state of a DStorageStreamBuf session (fields of PImpl
plus the streambuf get-area pointers, as offsets from the buffer head). -/
structure StreamState where
  fileSize : Nat
  readSize : Nat
  eventPos : Nat
  nevents : Nat
  gpos : Int
  egpos : Int
  status : status_code
  futureValid : Bool
  buf : Nat → Nat

/-- Freshly constructed / closed state (PImpl default member values). -/
def initState : StreamState :=
  { fileSize := 0, readSize := 0, eventPos := 0, nevents := 0,
    gpos := 0, egpos := 0, status := .idle, futureValid := false,
    buf := fun _ => 0 }

/-- Number of chunk events allocated by open():
file_size / C + (file_size % C ? 1 : 0). -/
def nchunks (C L : Nat) : Nat := L / C + (if L % C = 0 then 0 else 1)

/-- Fence value enqueued after submitting the j-th chunk (0-based):
the cumulative progress min ((j+1)*C) L of do_read's submission loop. -/
def signalVal (C L : Nat) (j : Nat) : Nat := min ((j + 1) * C) L

/-- Legality of a fence oracle: what the engine guarantees about the value
GetCompletedValue returns when the consumer wakes from the j-th chunk
event.  The fence is at least that chunk's signal value, at most the file
size, only takes enqueued signal values, and is monotone over time. -/
def LegalOracle (C L : Nat) (ora : Nat → Nat) : Prop :=
  ∀ j, j < nchunks C L →
    signalVal C L j ≤ ora j ∧ ora j ≤ L ∧
    (∃ k, k < nchunks C L ∧ ora j = signalVal C L k) ∧
    ora j ≤ ora (j + 1)

namespace DStorageStreamBuf

/-- DStorageStreamBuf::open(path): factory availability, the
filesystem::file_size query result (none = error), and the eventual file
contents are inputs.  Returns the state after open and open's result. -/
def open' (factory : Bool) (C : Nat) (sizeQuery : Option Nat)
    (content : Nat → Nat) : StreamState × Bool :=
  if !factory then
    ({ initState with status := .error_dll_not_found }, false)
  else
    match sizeQuery with
    | none =>
        ({ initState with fileSize := 2 ^ 64 - 1,
                          status := .error_file_open_failed }, false)
    | some L =>
        if L = 0 then
          ({ initState with status := .completed }, true)
        else
          ({ initState with fileSize := L, nevents := nchunks C L,
                            status := .launched, futureValid := true,
                            buf := content }, true)

/-- DStorageStreamBuf::wait_next_block(). -/
def wait_next_block (ora : Nat → Nat) (s : StreamState) :
    StreamState × Bool :=
  if s.status.toInt ≤ 0 then (s, false)
  else if s.eventPos < s.nevents then
    let f := ora s.eventPos
    ({ s with readSize := f, eventPos := s.eventPos + 1,
              egpos := (f : Int) }, true)
  else (s, false)

/-- DStorageStreamBuf::underflow(): wait_next_block() ? 0 : eof.
True models the 0 return, false models eof. -/
def underflow (ora : Nat → Nat) (s : StreamState) : StreamState × Bool :=
  wait_next_block ora s

/-- Loop body of DStorageStreamBuf::xsgetn: while (remain) copy up to
read_size, then underflow (which waits the next block) and retry.  Returns
(state, remain left when the loop exits, bytes copied).  The fuel bounds
the iteration count; count + nevents + 1 always suffices because every
iteration with remain > 0 either consumes bytes or consumes an event. -/
def xsgetnLoop (ora : Nat → Nat) : Nat → Nat → StreamState →
    StreamState × Nat × List Nat
  | 0, remain, s => (s, remain, [])
  | fuel + 1, remain, s =>
    if remain = 0 then (s, 0, [])
    else
      let avail := toSizeT ((s.readSize : Int) - s.gpos)
      let n := min remain avail
      let chunk := (List.range n).map fun (i : Nat) => s.buf (s.gpos + (i : Int)).toNat
      let s1 := { s with gpos := s.gpos + (n : Int), egpos := (s.readSize : Int) }
      let remain1 := remain - n
      if remain1 = 0 then (s1, 0, chunk)
      else
        match underflow ora s1 with
        | (s2, true) =>
            let r := xsgetnLoop ora fuel remain1 s2
            (r.1, r.2.1, chunk ++ r.2.2)
        | (s2, false) => (s2, remain1, chunk)

/-- DStorageStreamBuf::xsgetn(dst, count): returns the state, the returned
byte count (count - remain), and the bytes copied to dst. -/
def xsgetn (ora : Nat → Nat) (count : Nat) (s : StreamState) :
    StreamState × Nat × List Nat :=
  let r := xsgetnLoop ora (count + s.nevents + 1) count s
  (r.1, count - r.2.1, r.2.2)

/-- Seek direction (std::ios::beg / cur / end). -/
inductive SeekDir where
  | beg
  | cur
  | fromEnd
deriving DecidableEq, Repr

/-- The waiting loop of DStorageStreamBuf::seekoff:
while (read_size < distance) if (!wait_next_block()) break.
Fuel nevents - eventPos + 1 always suffices since every true return of
wait_next_block consumes an event. -/
def seekWaitLoop (ora : Nat → Nat) : Nat → Nat → StreamState → StreamState
  | 0, _, s => s
  | fuel + 1, dist, s =>
    if s.readSize < dist then
      match wait_next_block ora s with
      | (s', true) => seekWaitLoop ora fuel dist s'
      | (s', false) => s'
    else s

/-- DStorageStreamBuf::seekoff(off, dir): computes the target pointer,
waits until read_size covers its distance from the head (or no further
block arrives), clamps to head + read_size and resets the get area. -/
def seekoff (ora : Nat → Nat) (off : Int) (dir : SeekDir)
    (s : StreamState) : StreamState × Int :=
  let current : Int :=
    match dir with
    | .beg => off
    | .cur => s.gpos + off
    | .fromEnd => (s.fileSize : Int) - off
  let dist := toSizeT current
  let s1 := seekWaitLoop ora (s.nevents - s.eventPos + 1) dist s
  let current2 : Int := min current (s1.readSize : Int)
  ({ s1 with gpos := current2, egpos := (s1.fileSize : Int) }, current2)

/-- The draining loop of DStorageStreamBuf::wait():
while (wait_next_block()) {}. -/
def drainLoop (ora : Nat → Nat) : Nat → StreamState → StreamState
  | 0, s => s
  | fuel + 1, s =>
    match wait_next_block ora s with
    | (s', true) => drainLoop ora fuel s'
    | (s', false) => s'

/-- DStorageStreamBuf::wait(): if the future is valid, block until the
background do_read finishes (fin is its final status, already published
through the atomic when future.wait() returns), then drain the remaining
blocks; returns state == completed. -/
def wait (fin : status_code) (ora : Nat → Nat) (s : StreamState) :
    StreamState × Bool :=
  if s.futureValid then
    let s1 := { s with status := fin, futureValid := false }
    let s2 := drainLoop ora (s1.nevents - s1.eventPos + 1) s1
    (s2, s2.status = .completed)
  else (s, s.status = .completed)

/-- Successive results of read_size after each wait_next_block() call that
returns true, stopping at the first false return. -/
def collect_blocks (ora : Nat → Nat) : Nat → StreamState → List Nat
  | 0, _ => []
  | fuel + 1, s =>
    match wait_next_block ora s with
    | (s', true) => s'.readSize :: collect_blocks ora fuel s'
    | (_, false) => []

/-- The read_size sequence the spec predicts: C, 2C, ..., L. -/
def chunkSeq (C L : Nat) : List Nat :=
  (List.range (nchunks C L)).map fun j => signalVal C L j

/-- DStorageStreamBuf::is_open(): state >= launched. -/
def is_open (s : status_code) : Bool := decide (1 ≤ s.toInt)

/-- DStorageStreamBuf::state(). -/
def state (s : StreamState) : status_code := s.status

/-- DStorageStreamBuf::read_size(). -/
def read_size (s : StreamState) : Nat := s.readSize

/-- DStorageStreamBuf::file_size(). -/
def file_size (s : StreamState) : Nat := s.fileSize

end DStorageStreamBuf

/-- Status transitions performed by the background do_read thread:
launched -> reading (after Submit), reading -> completed or
reading -> error_unknown (after the last event, by the error record), and
launched -> error_file_open_failed (OpenFile failure). -/
inductive EnvStatusStep : status_code → status_code → Prop
  | submit : EnvStatusStep .launched .reading
  | finish : EnvStatusStep .reading .completed
  | fail : EnvStatusStep .reading .error_unknown
  | openFail : EnvStatusStep .launched .error_file_open_failed

/-- fin is a terminal status the background thread can still reach from
the current status: what future.wait() can observe. -/
def TerminalFrom (cur fin : status_code) : Prop :=
  Relation.ReflTransGen EnvStatusStep cur fin ∧
    (fin = .completed ∨ fin.toInt < 0)

/-- One step of an open session: either the background thread advances the
shared status, or the consumer performs one of the operations
wait_next_block, seek, read, wait.  close() ends the session and is not a
session step. -/
inductive Step (ora : Nat → Nat) : StreamState → StreamState → Prop
  | env {s : StreamState} {st' : status_code} :
      EnvStatusStep s.status st' → Step ora s { s with status := st' }
  | wnb {s : StreamState} :
      Step ora s (DStorageStreamBuf.wait_next_block ora s).1
  | seek {s : StreamState} (off : Int) (dir : DStorageStreamBuf.SeekDir) :
      Step ora s (DStorageStreamBuf.seekoff ora off dir s).1
  | read {s : StreamState} (count : Nat) :
      Step ora s (DStorageStreamBuf.xsgetn ora count s).1
  | waitall {s : StreamState} {fin : status_code} :
      TerminalFrom s.status fin →
      Step ora s (DStorageStreamBuf.wait fin ora s).1

/-- States reachable within a session opened on an existing file of length
L with chunk size C. -/
def Reachable (C L : Nat) (ora content : Nat → Nat) (s : StreamState) :
    Prop :=
  Relation.ReflTransGen (Step ora)
    (DStorageStreamBuf.open' true C (some L) content).1 s

/-- The session invariant maintained by every Step. -/
structure Inv (C L : Nat) (ora : Nat → Nat) (s : StreamState) : Prop where
  hfs : s.fileSize = L
  hnev : s.nevents = nchunks C L
  hep : s.eventPos ≤ s.nevents
  hrs : s.readSize = if s.eventPos = 0 then 0 else ora (s.eventPos - 1)
  hrsL : s.readSize ≤ L
  hfv : s.futureValid = false → s.status = .completed → s.readSize = L
  hlr : s.status = .launched ∨ s.status = .reading → s.futureValid = true

namespace MMapStreamBuf

/-- MMapStreamBuf::default_reserve_size = 1024 * 1024 * 16. -/
def default_reserve_size : Nat := 1024 * 1024 * 16

/-- The GiB constant of ExpandFileSize. -/
def GiB : Nat := 1024 * 1024 * 1024

/-- One iteration of the ExpandFileSize loop:
size < GiB ? size * 2 : size + GiB. -/
def growStep (size : Nat) : Nat := if size < GiB then size * 2 else size + GiB

/-- The while loop of ExpandFileSize, with fuel bounding the iteration
count; base + expand iterations always suffice for base > 0 because every
iteration grows size by at least 1. -/
def expandLoop : Nat → Nat → Nat → Nat
  | 0, size, _ => size
  | fuel + 1, size, required =>
    if size < required then expandLoop fuel (growStep size) required
    else size

/-- ExpandFileSize(base, expand): grow base by doubling below 1 GiB and by
flat 1 GiB increments above, until it reaches base + expand. -/
def ExpandFileSize (base expand : Nat) : Nat :=
  expandLoop (base + expand) base (base + expand)

/-- State of an MMapStreamBuf over its MemoryMappedFile: open flag, the
openmode in/out bits, the mapped capacity (mmap_.size()), the put and get
pointers as offsets from the mapping head, the high-water mark pmax_, the
length of the backing file on disk, and the byte contents of the mapping
(equivalently, of the backing file, which the mapping extends). -/
structure MMapBuf where
  isOpenF : Bool
  modeOut : Bool
  modeIn : Bool
  cap : Nat
  ppos : Int
  gpos : Int
  pmax : Nat
  fileLen : Nat
  contents : Nat → Nat

/-- MMapStreamBuf::reserve(size): if size > mmap_.size(), remap the same
backing file at the larger capacity (which extends the file on disk),
preserving contents and the put position. -/
def reserve (size : Nat) (s : MMapBuf) : MMapBuf :=
  if size > s.cap then { s with cap := size, fileLen := size } else s

/-- MMapStreamBuf::open(path, out-mode): create the file (length 0), then
reserve(default_reserve_size); a fresh CREATE_ALWAYS file is zero-filled
as it is extended. -/
def open_write : MMapBuf :=
  reserve default_reserve_size
    { isOpenF := true, modeOut := true, modeIn := false, cap := 0,
      ppos := 0, gpos := 0, pmax := 0, fileLen := 0, contents := fun _ => 0 }

/-- MMapStreamBuf::xsputn(ptr, count): grow via
reserve(ExpandFileSize(mmap_.size(), count)) when the destination range
passes the mapped tail, then copy and advance the put pointer. -/
def xsputn (data : List Nat) (s : MMapBuf) : MMapBuf × Nat :=
  let count := data.length
  let s1 :=
    if s.ppos + (count : Int) > (s.cap : Int) then
      reserve (ExpandFileSize s.cap count) s
    else s
  let contents' := fun (i : Nat) =>
    if s1.ppos ≤ (i : Int) ∧ (i : Int) < s1.ppos + (count : Int) then
      data.getD ((i : Int) - s1.ppos).toNat 0
    else s1.contents i
  ({ s1 with contents := contents', ppos := s1.ppos + (count : Int) }, count)

/-- MMapStreamBuf::xsgetn(ptr, count): copy min(count, tail - gptr) bytes
and advance the get pointer.  Returns the state, the returned count and
the bytes copied. -/
def xsgetn (count : Nat) (s : MMapBuf) : MMapBuf × Nat × List Nat :=
  let remaining := toSizeT ((s.cap : Int) - s.gpos)
  let readSize := min count remaining
  let bytes := (List.range readSize).map fun (i : Nat) =>
    s.contents (s.gpos + (i : Int)).toNat
  ({ s with gpos := s.gpos + (readSize : Int) }, readSize, bytes)

/-- MMapStreamBuf::seekoff(off, dir): in write mode first updates pmax_ to
max(pmax_, current put offset), then moves the put pointer; in read mode
moves the get pointer; returns -1 when neither mode bit is set. -/
def seekoff (off : Int) (dir : DStorageStreamBuf.SeekDir) (s : MMapBuf) :
    MMapBuf × Int :=
  if s.modeOut then
    let pmax' := max s.pmax (toSizeT s.ppos)
    let current : Int :=
      match dir with
      | .beg => off
      | .cur => s.ppos + off
      | .fromEnd => (s.cap : Int) - off
    ({ s with pmax := pmax', ppos := current }, current)
  else if s.modeIn then
    let current : Int :=
      match dir with
      | .beg => off
      | .cur => s.gpos + off
      | .fromEnd => (s.cap : Int) - off
    ({ s with gpos := current }, current)
  else (s, -1)

/-- MMapStreamBuf::open(path, in-mode): map the whole existing file
read-only, then seekpos(0). -/
def open_read (fileLen : Nat) (fileContents : Nat → Nat) : MMapBuf :=
  (seekoff 0 .beg
    { isOpenF := true, modeOut := false, modeIn := true, cap := fileLen,
      ppos := 0, gpos := 0, pmax := 0, fileLen := fileLen,
      contents := fileContents }).1

/-- MMapStreamBuf::close(): MemoryMappedFile::close() (unmap and release
the handle, no truncation — the backing file keeps the length the mapping
extended it to) and pmax_ = 0. -/
def close (s : MMapBuf) : MMapBuf :=
  { s with isOpenF := false, cap := 0, pmax := 0 }

/-- ~MMapStreamBuf(): if still open in write mode, truncate the backing
file to max(pmax_, pptr - data()) via close_with_truncation. -/
def destruct (s : MMapBuf) : MMapBuf :=
  if s.isOpenF && s.modeOut then
    { s with isOpenF := false, cap := 0,
             fileLen := max s.pmax (toSizeT s.ppos) }
  else s

/-- A sequence of write calls (each one xsputn). -/
def writeAll (ws : List (List Nat)) (s : MMapBuf) : MMapBuf :=
  ws.foldl (fun acc w => (xsputn w acc).1) s

end MMapStreamBuf

section DStorageLemmas

open DStorageStreamBuf

/-- Data part of the session invariant (independent of the status). -/
structure DataInv (C L : Nat) (ora : Nat → Nat) (s : StreamState) :
    Prop where
  hfs : s.fileSize = L
  hnev : s.nevents = nchunks C L
  hep : s.eventPos ≤ s.nevents
  hrs : s.readSize = if s.eventPos = 0 then 0 else ora (s.eventPos - 1)
  hrsL : s.readSize ≤ L

/-- Status/future part of the session invariant. -/
structure FvInv (L : Nat) (s : StreamState) : Prop where
  hfv : s.futureValid = false → s.status = .completed → s.readSize = L
  hlr : s.status = .launched ∨ s.status = .reading → s.futureValid = true

/-- Frame facts preserved by the consumer's waiting primitives. -/
structure FramePres (s s' : StreamState) : Prop where
  hst : s'.status = s.status
  hfv : s'.futureValid = s.futureValid
  hfs : s'.fileSize = s.fileSize
  hnev : s'.nevents = s.nevents
  hbuf : s'.buf = s.buf
  hep : s.eventPos ≤ s'.eventPos
  hrs : s.readSize ≤ s'.readSize

theorem FramePres.same {s : StreamState} : FramePres s s :=
  ⟨rfl, rfl, rfl, rfl, rfl, le_refl _, le_refl _⟩

theorem FramePres.comp {a b c : StreamState} (h1 : FramePres a b)
    (h2 : FramePres b c) : FramePres a c :=
  ⟨h2.hst.trans h1.hst, h2.hfv.trans h1.hfv, h2.hfs.trans h1.hfs,
   h2.hnev.trans h1.hnev, h2.hbuf.trans h1.hbuf, h1.hep.trans h2.hep,
   h1.hrs.trans h2.hrs⟩

theorem nchunks_eq_zero_iff {C L : Nat} (_hC : 0 < C) :
    nchunks C L = 0 ↔ L = 0 := by
  unfold nchunks
  have hd := Nat.div_add_mod L C
  constructor
  · intro h
    by_cases hm : L % C = 0
    · rw [if_pos hm, Nat.add_zero] at h
      rw [h, Nat.mul_zero] at hd
      omega
    · rw [if_neg hm] at h
      exact absurd h (Nat.succ_ne_zero _)
  · intro h; simp [h, Nat.zero_div, Nat.zero_mod]

theorem nchunks_mul_ge {C L : Nat} (hC : 0 < C) : L ≤ nchunks C L * C := by
  unfold nchunks
  have hd := Nat.div_add_mod L C
  rw [Nat.mul_comm]
  by_cases hm : L % C = 0
  · rw [if_pos hm, Nat.add_zero]
    omega
  · rw [if_neg hm]
    have hmod : L % C < C := Nat.mod_lt _ hC
    have hmc : C * (L / C + 1) = C * (L / C) + C := by ring
    omega

theorem signalVal_le {C L j : Nat} : signalVal C L j ≤ L :=
  min_le_right _ _

theorem signalVal_last {C L : Nat} (hC : 0 < C) (hL : 0 < L) :
    signalVal C L (nchunks C L - 1) = L := by
  unfold signalVal
  have hn : 0 < nchunks C L := by
    by_contra h
    have h0 := (nchunks_eq_zero_iff hC).mp (Nat.eq_zero_of_not_pos h)
    omega
  have : nchunks C L - 1 + 1 = nchunks C L := Nat.succ_pred_eq_of_pos hn
  rw [this]
  exact min_eq_right (nchunks_mul_ge hC)

theorem ora_le_L {C L : Nat} {ora : Nat → Nat}
    (hora : LegalOracle C L ora) {j : Nat} (hj : j < nchunks C L) :
    ora j ≤ L := (hora j hj).2.1

theorem ora_ge_signal {C L : Nat} {ora : Nat → Nat}
    (hora : LegalOracle C L ora) {j : Nat} (hj : j < nchunks C L) :
    signalVal C L j ≤ ora j := (hora j hj).1

theorem ora_mono {C L : Nat} {ora : Nat → Nat}
    (hora : LegalOracle C L ora) {j : Nat} (hj : j < nchunks C L) :
    ora j ≤ ora (j + 1) := (hora j hj).2.2.2

theorem ora_last {C L : Nat} {ora : Nat → Nat} (hC : 0 < C)
    (hora : LegalOracle C L ora) (hL : 0 < L) :
    ora (nchunks C L - 1) = L := by
  have hn : 0 < nchunks C L := by
    by_contra h
    have := (nchunks_eq_zero_iff hC).mp (Nat.eq_zero_of_not_pos h)
    omega
  have hj : nchunks C L - 1 < nchunks C L := Nat.sub_lt hn one_pos
  have h1 := ora_ge_signal hora hj
  have h2 := ora_le_L hora hj
  rw [signalVal_last hC hL] at h1
  omega

/-- If all chunk events have been consumed, read_size has reached L. -/
theorem drained_readSize {C L : Nat} {ora : Nat → Nat} {s : StreamState}
    (hC : 0 < C) (hora : LegalOracle C L ora) (hd : DataInv C L ora s)
    (h : s.eventPos = s.nevents) : s.readSize = L := by
  rcases Nat.eq_zero_or_pos s.nevents with h0 | h0
  · have hL : L = 0 := (nchunks_eq_zero_iff hC).mp (hd.hnev ▸ h0)
    have : s.eventPos = 0 := by omega
    rw [hd.hrs, if_pos this, hL]
  · have hne : s.eventPos ≠ 0 := by omega
    rw [hd.hrs, if_neg hne, h, hd.hnev]
    exact ora_last hC hora (by
      by_contra hL
      have h1 : L = 0 := Nat.eq_zero_of_not_pos hL
      have h2 := (nchunks_eq_zero_iff hC).mpr h1
      have h3 := hd.hnev
      omega)

/-- Case analysis of wait_next_block. -/
theorem wnb_cases (ora : Nat → Nat) (s : StreamState) :
    (s.status.toInt ≤ 0 ∧ wait_next_block ora s = (s, false)) ∨
    (¬ s.status.toInt ≤ 0 ∧ s.eventPos < s.nevents ∧
      wait_next_block ora s =
        ({ s with readSize := ora s.eventPos, eventPos := s.eventPos + 1,
                  egpos := (ora s.eventPos : Int) }, true)) ∨
    (¬ s.status.toInt ≤ 0 ∧ ¬ s.eventPos < s.nevents ∧
      wait_next_block ora s = (s, false)) := by
  unfold wait_next_block
  by_cases h1 : s.status.toInt ≤ 0
  · exact Or.inl ⟨h1, by rw [if_pos h1]⟩
  · by_cases h2 : s.eventPos < s.nevents
    · exact Or.inr (Or.inl ⟨h1, h2, by rw [if_neg h1, if_pos h2]⟩)
    · exact Or.inr (Or.inr ⟨h1, h2, by rw [if_neg h1, if_neg h2]⟩)

theorem wnb_data {C L : Nat} {ora : Nat → Nat} {s : StreamState}
    (hora : LegalOracle C L ora) (hd : DataInv C L ora s) :
    DataInv C L ora (wait_next_block ora s).1 ∧
      FramePres s (wait_next_block ora s).1 := by
  rcases wnb_cases ora s with ⟨h1, heq⟩ | ⟨h1, h2, heq⟩ | ⟨h1, h2, heq⟩
  · rw [heq]; exact ⟨hd, FramePres.same⟩
  · rw [heq]
    have hjlt : s.eventPos < nchunks C L := hd.hnev ▸ h2
    have hmono : s.readSize ≤ ora s.eventPos := by
      rw [hd.hrs]
      by_cases he : s.eventPos = 0
      · simp [he]
      · rw [if_neg he]
        have hm := ora_mono hora (j := s.eventPos - 1) (by omega)
        have heq2 : s.eventPos - 1 + 1 = s.eventPos := by omega
        rw [heq2] at hm
        exact hm
    refine ⟨⟨hd.hfs, hd.hnev, by simpa using h2, ?_, ora_le_L hora hjlt⟩,
            rfl, rfl, rfl, rfl, rfl, Nat.le_succ _, hmono⟩
    simp
  · rw [heq]; exact ⟨hd, FramePres.same⟩

theorem wnb_data_pair {C L : Nat} {ora : Nat → Nat} {s s2 : StreamState}
    {b : Bool} (hora : LegalOracle C L ora)
    (heq : wait_next_block ora s = (s2, b)) (hd : DataInv C L ora s) :
    DataInv C L ora s2 ∧ FramePres s s2 := by
  have h := wnb_data hora hd
  rw [heq] at h
  exact h

/-- The seekoff waiting loop: invariant preservation, frame preservation,
and with enough fuel the exit condition (distance reached, or all events
consumed, or the status was already idle/error). -/
theorem seekWaitLoop_spec {C L : Nat} {ora : Nat → Nat}
    (hora : LegalOracle C L ora) :
    ∀ (fuel dist : Nat) (s : StreamState), DataInv C L ora s →
      DataInv C L ora (seekWaitLoop ora fuel dist s) ∧
      FramePres s (seekWaitLoop ora fuel dist s) ∧
      (seekWaitLoop ora fuel dist s).gpos = s.gpos ∧
      (s.nevents - s.eventPos < fuel →
        dist ≤ (seekWaitLoop ora fuel dist s).readSize ∨
        (seekWaitLoop ora fuel dist s).eventPos =
          (seekWaitLoop ora fuel dist s).nevents ∨
        s.status.toInt ≤ 0) := by
  intro fuel
  induction fuel with
  | zero =>
    intro dist s hd
    exact ⟨hd, FramePres.same, rfl, by omega⟩
  | succ n ih =>
    intro dist s hd
    unfold seekWaitLoop
    by_cases hlt : s.readSize < dist
    · rw [if_pos hlt]
      rcases wnb_cases ora s with ⟨h1, heq⟩ | ⟨h1, h2, heq⟩ | ⟨h1, h2, heq⟩
      · rw [heq]
        exact ⟨hd, FramePres.same, rfl, fun _ => Or.inr (Or.inr h1)⟩
      · rw [heq]
        have hstep := wnb_data hora hd
        rw [heq] at hstep
        obtain ⟨hd2, hp2⟩ := hstep
        obtain ⟨hd3, hp3, hg3, hpost3⟩ := ih dist _ hd2
        refine ⟨hd3, hp2.comp hp3, hg3, ?_⟩
        intro hfuel
        have hfuel2 : s.nevents - (s.eventPos + 1) < n := by omega
        rcases hpost3 (by simpa using hfuel2) with h | h | h
        · exact Or.inl h
        · exact Or.inr (Or.inl h)
        · exact absurd (by simpa using h) h1
      · rw [heq]
        refine ⟨hd, FramePres.same, rfl, fun _ => Or.inr (Or.inl ?_)⟩
        show s.eventPos = s.nevents
        have := hd.hep
        omega
    · rw [if_neg hlt]
      exact ⟨hd, FramePres.same, rfl, fun _ => Or.inl (by omega)⟩

/-- The wait() draining loop: invariant and frame preservation, and with
enough fuel either all events are consumed or the status was idle/error. -/
theorem drainLoop_spec {C L : Nat} {ora : Nat → Nat}
    (hora : LegalOracle C L ora) :
    ∀ (fuel : Nat) (s : StreamState), DataInv C L ora s →
      DataInv C L ora (drainLoop ora fuel s) ∧
      FramePres s (drainLoop ora fuel s) ∧
      (s.nevents - s.eventPos < fuel →
        (drainLoop ora fuel s).eventPos = (drainLoop ora fuel s).nevents ∨
        s.status.toInt ≤ 0) := by
  intro fuel
  induction fuel with
  | zero =>
    intro s hd
    exact ⟨hd, FramePres.same, by omega⟩
  | succ n ih =>
    intro s hd
    unfold drainLoop
    rcases wnb_cases ora s with ⟨h1, heq⟩ | ⟨h1, h2, heq⟩ | ⟨h1, h2, heq⟩
    · rw [heq]
      exact ⟨hd, FramePres.same, fun _ => Or.inr h1⟩
    · rw [heq]
      have hstep := wnb_data hora hd
      rw [heq] at hstep
      obtain ⟨hd2, hp2⟩ := hstep
      obtain ⟨hd3, hp3, hpost3⟩ := ih _ hd2
      refine ⟨hd3, hp2.comp hp3, ?_⟩
      intro hfuel
      have hfuel2 : s.nevents - (s.eventPos + 1) < n := by omega
      rcases hpost3 (by simpa using hfuel2) with h | h
      · exact Or.inl h
      · exact absurd (by simpa using h) h1
    · rw [heq]
      refine ⟨hd, FramePres.same, fun _ => Or.inl ?_⟩
      show s.eventPos = s.nevents
      have := hd.hep
      omega

/-- The xsgetn loop preserves the data invariant and the frame. -/
theorem xsgetnLoop_spec {C L : Nat} {ora : Nat → Nat}
    (hora : LegalOracle C L ora) :
    ∀ (fuel remain : Nat) (s : StreamState), DataInv C L ora s →
      DataInv C L ora (xsgetnLoop ora fuel remain s).1 ∧
      FramePres s (xsgetnLoop ora fuel remain s).1 := by
  intro fuel
  induction fuel with
  | zero =>
    intro remain s hd
    exact ⟨hd, FramePres.same⟩
  | succ n ih =>
    intro remain s hd
    unfold xsgetnLoop
    by_cases hr : remain = 0
    · rw [if_pos hr]
      exact ⟨hd, FramePres.same⟩
    · rw [if_neg hr]
      by_cases hr1 :
          remain - min remain (toSizeT ((s.readSize : Int) - s.gpos)) = 0
      · rw [if_pos hr1]
        exact ⟨⟨hd.hfs, hd.hnev, hd.hep, hd.hrs, hd.hrsL⟩,
               rfl, rfl, rfl, rfl, rfl, le_refl _, le_refl _⟩
      · rw [if_neg hr1]
        simp only [underflow]
        split
        · rename_i s2 heq
          obtain ⟨hd2, hp2⟩ := wnb_data_pair hora heq
            ⟨hd.hfs, hd.hnev, hd.hep, hd.hrs, hd.hrsL⟩
          obtain ⟨hd3, hp3⟩ := ih _ _ hd2
          refine ⟨hd3, FramePres.comp (FramePres.comp ?_ hp2) hp3⟩
          exact ⟨rfl, rfl, rfl, rfl, rfl, le_refl _, le_refl _⟩
        · rename_i s2 heq
          obtain ⟨hd2, hp2⟩ := wnb_data_pair hora heq
            ⟨hd.hfs, hd.hnev, hd.hep, hd.hrs, hd.hrsL⟩
          refine ⟨hd2, FramePres.comp ?_ hp2⟩
          exact ⟨rfl, rfl, rfl, rfl, rfl, le_refl _, le_refl _⟩

/-- A frame-preserving successor keeps the status/future invariant. -/
theorem fv_of_frame {L : Nat} {s s' : StreamState} (hf : FvInv L s)
    (hp : FramePres s s') (hle : s'.readSize ≤ L) : FvInv L s' := by
  constructor
  · intro h1 h2
    have h3 := hf.hfv (hp.hfv ▸ h1) (hp.hst ▸ h2)
    have h4 := hp.hrs
    omega
  · intro h
    rw [hp.hfv]
    exact hf.hlr (hp.hst ▸ h)

/-- Case facts about a background status transition. -/
theorem envstep_facts {a b : status_code} (h : EnvStatusStep a b) :
    (a = .launched ∨ a = .reading) ∧
    (b = .reading ∨ b = .completed ∨ b.toInt < 0) ∧
    (b = .completed → a = .reading) := by
  cases h <;> simp [status_code.toInt]

/-- FvInv only depends on status, futureValid and readSize. -/
theorem fv_congr {L : Nat} {s s' : StreamState} (hf : FvInv L s)
    (hst : s'.status = s.status) (hfv : s'.futureValid = s.futureValid)
    (hrs : s'.readSize = s.readSize) : FvInv L s' := by
  constructor
  · intro h1 h2
    rw [hrs]
    exact hf.hfv (hfv ▸ h1) (hst ▸ h2)
  · intro h1
    rw [hfv]
    exact hf.hlr (hst ▸ h1)

theorem wait_valid {fin : status_code} {ora : Nat → Nat} {s : StreamState}
    (hfu : s.futureValid = true) :
    DStorageStreamBuf.wait fin ora s =
      (drainLoop ora (s.nevents - s.eventPos + 1)
          { s with status := fin, futureValid := false },
        decide ((drainLoop ora (s.nevents - s.eventPos + 1)
          { s with status := fin, futureValid := false }).status
            = .completed)) := by
  unfold DStorageStreamBuf.wait
  rw [if_pos hfu]

theorem wait_invalid {fin : status_code} {ora : Nat → Nat}
    {s : StreamState} (hfu : s.futureValid = false) :
    DStorageStreamBuf.wait fin ora s =
      (s, decide (s.status = .completed)) := by
  unfold DStorageStreamBuf.wait
  rw [if_neg (by rw [hfu]; exact Bool.false_ne_true)]

/-- Every session step preserves both invariants and never decreases
read_size. -/
theorem step_pres {C L : Nat} {ora : Nat → Nat} {s s' : StreamState}
    (hC : 0 < C) (hora : LegalOracle C L ora) (h : Step ora s s')
    (hd : DataInv C L ora s) (hf : FvInv L s) :
    DataInv C L ora s' ∧ FvInv L s' ∧ s.readSize ≤ s'.readSize := by
  cases h with
  | env henv =>
    have hfacts := envstep_facts henv
    refine ⟨⟨hd.hfs, hd.hnev, hd.hep, hd.hrs, hd.hrsL⟩, ⟨?_, ?_⟩, le_refl _⟩
    · intro h1 h2
      have ha : s.status = .reading := hfacts.2.2 h2
      have hb := hf.hlr (Or.inr ha)
      have h1b : s.futureValid = false := h1
      rw [hb] at h1b
      cases h1b
    · intro _
      show s.futureValid = true
      exact hf.hlr hfacts.1
  | wnb =>
    obtain ⟨hd2, hp2⟩ := wnb_data hora hd
    exact ⟨hd2, fv_of_frame hf hp2 hd2.hrsL, hp2.hrs⟩
  | seek off dir =>
    obtain ⟨hd1, hp1, hg1, _⟩ := seekWaitLoop_spec hora
      (s.nevents - s.eventPos + 1)
      (toSizeT (match dir with
        | .beg => off
        | .cur => s.gpos + off
        | .fromEnd => ((s.fileSize : Int) - off))) s hd
    refine ⟨⟨hd1.hfs, hd1.hnev, hd1.hep, hd1.hrs, hd1.hrsL⟩, ?_, hp1.hrs⟩
    exact fv_congr (fv_of_frame hf hp1 hd1.hrsL) rfl rfl rfl
  | read count =>
    obtain ⟨hd1, hp1⟩ := xsgetnLoop_spec hora (count + s.nevents + 1) count s hd
    exact ⟨hd1, fv_of_frame hf hp1 hd1.hrsL, hp1.hrs⟩
  | waitall hterm =>
    rename_i fin
    cases hfu : s.futureValid with
    | false =>
      rw [wait_invalid hfu]
      exact ⟨hd, hf, le_refl _⟩
    | true =>
      rw [wait_valid hfu]
      have hd1 : DataInv C L ora
          ({ s with status := fin, futureValid := false }) :=
        ⟨hd.hfs, hd.hnev, hd.hep, hd.hrs, hd.hrsL⟩
      obtain ⟨hd2, hp2, hpost⟩ := drainLoop_spec hora
        (s.nevents - s.eventPos + 1)
        ({ s with status := fin, futureValid := false }) hd1
      have hA : (drainLoop ora (s.nevents - s.eventPos + 1)
          { s with status := fin, futureValid := false }).status = fin :=
        hp2.hst
      have hB : (drainLoop ora (s.nevents - s.eventPos + 1)
          { s with status := fin, futureValid := false }).futureValid
            = false :=
        hp2.hfv
      refine ⟨hd2, ⟨?_, ?_⟩, hp2.hrs⟩
      · intro _ h2
        have hfin : fin = .completed := by rw [← hA]; exact h2
        rcases hpost (by
            show s.nevents - s.eventPos < s.nevents - s.eventPos + 1
            omega) with hca | hca
        · exact drained_readSize hC hora hd2 hca
        · have hca2 : fin.toInt ≤ 0 := hca
          rw [hfin] at hca2
          simp [status_code.toInt] at hca2
      · intro h1
        exfalso
        rcases hterm.2 with hc | he
        · rcases h1 with h | h
          · have h1b : fin = .launched := by rw [← hA]; exact h
            rw [hc] at h1b
            exact status_code.noConfusion h1b
          · have h1b : fin = .reading := by rw [← hA]; exact h
            rw [hc] at h1b
            exact status_code.noConfusion h1b
        · rcases h1 with h | h
          · have h1b : fin = .launched := by rw [← hA]; exact h
            rw [h1b] at he
            simp [status_code.toInt] at he
          · have h1b : fin = .reading := by rw [← hA]; exact h
            rw [h1b] at he
            simp [status_code.toInt] at he

/-- wait_next_block when the sampled status is idle or an error. -/
theorem wnb_err {ora : Nat → Nat} (s : StreamState)
    (h : s.status.toInt ≤ 0) : wait_next_block ora s = (s, false) := by
  unfold wait_next_block
  rw [if_pos h]

/-- Unconditional frame facts of wait_next_block. -/
theorem wnb_frame (ora : Nat → Nat) (s : StreamState) :
    (wait_next_block ora s).1.status = s.status ∧
    (wait_next_block ora s).1.futureValid = s.futureValid ∧
    (wait_next_block ora s).1.buf = s.buf ∧
    (wait_next_block ora s).1.nevents = s.nevents ∧
    (wait_next_block ora s).1.fileSize = s.fileSize ∧
    s.eventPos ≤ (wait_next_block ora s).1.eventPos := by
  rcases wnb_cases ora s with ⟨h1, heq⟩ | ⟨h1, h2, heq⟩ | ⟨h1, h2, heq⟩ <;>
    rw [heq] <;>
    exact ⟨rfl, rfl, rfl, rfl, rfl, by first | exact le_refl _ | exact Nat.le_succ _⟩

theorem seekWaitLoop_err {ora : Nat → Nat} {s : StreamState}
    (h : s.status.toInt ≤ 0) :
    ∀ fuel dist, seekWaitLoop ora fuel dist s = s := by
  intro fuel dist
  cases fuel with
  | zero => rfl
  | succ n =>
    unfold seekWaitLoop
    by_cases hlt : s.readSize < dist
    · rw [if_pos hlt, wnb_err _ h]
    · rw [if_neg hlt]

theorem drainLoop_err {ora : Nat → Nat} {s : StreamState}
    (h : s.status.toInt ≤ 0) : ∀ fuel, drainLoop ora fuel s = s := by
  intro fuel
  cases fuel with
  | zero => rfl
  | succ n =>
    unfold drainLoop
    rw [wnb_err _ h]

/-- Unconditional frame facts of the seekoff waiting loop. -/
theorem seekWaitLoop_frame (ora : Nat → Nat) :
    ∀ (fuel dist : Nat) (s : StreamState),
      (seekWaitLoop ora fuel dist s).status = s.status ∧
      (seekWaitLoop ora fuel dist s).futureValid = s.futureValid ∧
      (seekWaitLoop ora fuel dist s).buf = s.buf ∧
      (seekWaitLoop ora fuel dist s).nevents = s.nevents ∧
      (seekWaitLoop ora fuel dist s).fileSize = s.fileSize ∧
      s.eventPos ≤ (seekWaitLoop ora fuel dist s).eventPos := by
  intro fuel
  induction fuel with
  | zero =>
    intro dist s
    exact ⟨rfl, rfl, rfl, rfl, rfl, le_refl _⟩
  | succ n ih =>
    intro dist s
    unfold seekWaitLoop
    by_cases hlt : s.readSize < dist
    · rw [if_pos hlt]
      rcases wnb_cases ora s with ⟨h1, heq⟩ | ⟨h1, h2, heq⟩ | ⟨h1, h2, heq⟩ <;>
        rw [heq]
      · exact ⟨rfl, rfl, rfl, rfl, rfl, le_refl _⟩
      · obtain ⟨i1, i2, i3, i4, i5, i6⟩ := ih dist
          { s with readSize := ora s.eventPos, eventPos := s.eventPos + 1,
                   egpos := (ora s.eventPos : Int) }
        exact ⟨i1, i2, i3, i4, i5, Nat.le_trans (Nat.le_succ _) i6⟩
      · exact ⟨rfl, rfl, rfl, rfl, rfl, le_refl _⟩
    · rw [if_neg hlt]
      exact ⟨rfl, rfl, rfl, rfl, rfl, le_refl _⟩

/-- Unconditional frame facts of the wait() draining loop. -/
theorem drainLoop_frame (ora : Nat → Nat) :
    ∀ (fuel : Nat) (s : StreamState),
      (drainLoop ora fuel s).status = s.status ∧
      (drainLoop ora fuel s).futureValid = s.futureValid ∧
      (drainLoop ora fuel s).buf = s.buf ∧
      (drainLoop ora fuel s).nevents = s.nevents ∧
      (drainLoop ora fuel s).fileSize = s.fileSize ∧
      s.eventPos ≤ (drainLoop ora fuel s).eventPos := by
  intro fuel
  induction fuel with
  | zero =>
    intro s
    exact ⟨rfl, rfl, rfl, rfl, rfl, le_refl _⟩
  | succ n ih =>
    intro s
    unfold drainLoop
    rcases wnb_cases ora s with ⟨h1, heq⟩ | ⟨h1, h2, heq⟩ | ⟨h1, h2, heq⟩ <;>
      rw [heq]
    · exact ⟨rfl, rfl, rfl, rfl, rfl, le_refl _⟩
    · obtain ⟨i1, i2, i3, i4, i5, i6⟩ := ih
        { s with readSize := ora s.eventPos, eventPos := s.eventPos + 1,
                 egpos := (ora s.eventPos : Int) }
      exact ⟨i1, i2, i3, i4, i5, Nat.le_trans (Nat.le_succ _) i6⟩
    · exact ⟨rfl, rfl, rfl, rfl, rfl, le_refl _⟩

theorem wnb_frame_pair {ora : Nat → Nat} {s s2 : StreamState} {b : Bool}
    (heq : wait_next_block ora s = (s2, b)) :
    s2.status = s.status ∧ s2.futureValid = s.futureValid ∧
    s2.buf = s.buf ∧ s2.nevents = s.nevents ∧ s2.fileSize = s.fileSize ∧
    s.eventPos ≤ s2.eventPos ∧ (b = true → ¬ s.status.toInt ≤ 0) := by
  obtain ⟨f1, f2, f3, f4, f5, f6⟩ := wnb_frame ora s
  rw [heq] at f1 f2 f3 f4 f5 f6
  refine ⟨f1, f2, f3, f4, f5, f6, ?_⟩
  intro hb h1
  rw [wnb_err _ h1] at heq
  injection heq with e1 e2
  rw [hb] at e2
  exact Bool.noConfusion e2

theorem wnb_false_eq {ora : Nat → Nat} {s s2 : StreamState}
    (heq : wait_next_block ora s = (s2, false)) : s2 = s := by
  rcases wnb_cases ora s with ⟨h1, heq2⟩ | ⟨h1, h2, heq2⟩ | ⟨h1, h2, heq2⟩ <;>
    rw [heq2] at heq <;> injection heq with e1 e2
  · exact e1.symm
  · exact Bool.noConfusion e2
  · exact e1.symm

/-- Unconditional frame facts of the xsgetn loop. -/
theorem xsgetnLoop_frame (ora : Nat → Nat) :
    ∀ (fuel remain : Nat) (s : StreamState),
      (xsgetnLoop ora fuel remain s).1.status = s.status ∧
      (xsgetnLoop ora fuel remain s).1.futureValid = s.futureValid ∧
      (xsgetnLoop ora fuel remain s).1.buf = s.buf ∧
      (xsgetnLoop ora fuel remain s).1.nevents = s.nevents ∧
      (xsgetnLoop ora fuel remain s).1.fileSize = s.fileSize ∧
      s.eventPos ≤ (xsgetnLoop ora fuel remain s).1.eventPos ∧
      (s.status.toInt ≤ 0 →
        (xsgetnLoop ora fuel remain s).1.readSize = s.readSize) := by
  intro fuel
  induction fuel with
  | zero =>
    intro remain s
    exact ⟨rfl, rfl, rfl, rfl, rfl, le_refl _, fun _ => rfl⟩
  | succ n ih =>
    intro remain s
    unfold xsgetnLoop
    by_cases hr : remain = 0
    · rw [if_pos hr]
      exact ⟨rfl, rfl, rfl, rfl, rfl, le_refl _, fun _ => rfl⟩
    · rw [if_neg hr]
      by_cases hr1 :
          remain - min remain (toSizeT ((s.readSize : Int) - s.gpos)) = 0
      · rw [if_pos hr1]
        exact ⟨rfl, rfl, rfl, rfl, rfl, le_refl _, fun _ => rfl⟩
      · rw [if_neg hr1]
        simp only [underflow]
        split
        · rename_i s2 heq
          obtain ⟨g1, g2, g3, g4, g5, g6, g7⟩ := wnb_frame_pair heq
          obtain ⟨i1, i2, i3, i4, i5, i6, i7⟩ := ih _ s2
          refine ⟨i1.trans g1, i2.trans g2, i3.trans g3, i4.trans g4,
                  i5.trans g5, Nat.le_trans g6 i6, ?_⟩
          intro hst
          exact absurd hst (g7 rfl)
        · rename_i s2 heq
          obtain ⟨g1, g2, g3, g4, g5, g6, _⟩ := wnb_frame_pair heq
          refine ⟨g1, g2, g3, g4, g5, g6, ?_⟩
          intro _
          rw [wnb_false_eq heq]

/-- The background status chain cannot move from an idle/error status. -/
theorem rtg_env_stable {a b : status_code}
    (h : Relation.ReflTransGen EnvStatusStep a b) (ha : a.toInt ≤ 0) :
    b = a := by
  induction h using Relation.ReflTransGen.head_induction_on with
  | refl => rfl
  | head hstep _ _ =>
    rename_i a2 b2 _
    have hfacts := envstep_facts hstep
    rcases hfacts.1 with h1 | h1 <;> rw [h1] at ha <;>
      simp [status_code.toInt] at ha

/-- Unconditional frame facts of seekoff. -/
theorem seekoff_frame (ora : Nat → Nat) (off : Int) (dir : SeekDir)
    (s : StreamState) :
    (seekoff ora off dir s).1.status = s.status ∧
    (seekoff ora off dir s).1.futureValid = s.futureValid ∧
    (seekoff ora off dir s).1.buf = s.buf ∧
    (seekoff ora off dir s).1.nevents = s.nevents ∧
    (seekoff ora off dir s).1.fileSize = s.fileSize ∧
    s.eventPos ≤ (seekoff ora off dir s).1.eventPos ∧
    (s.status.toInt ≤ 0 → (seekoff ora off dir s).1.readSize = s.readSize) := by
  cases dir with
  | beg =>
    obtain ⟨f1, f2, f3, f4, f5, f6⟩ := seekWaitLoop_frame ora
      (s.nevents - s.eventPos + 1) (toSizeT off) s
    refine ⟨f1, f2, f3, f4, f5, f6, ?_⟩
    intro hst
    show (seekWaitLoop ora (s.nevents - s.eventPos + 1)
      (toSizeT off) s).readSize = s.readSize
    rw [seekWaitLoop_err hst]
  | cur =>
    obtain ⟨f1, f2, f3, f4, f5, f6⟩ := seekWaitLoop_frame ora
      (s.nevents - s.eventPos + 1) (toSizeT (s.gpos + off)) s
    refine ⟨f1, f2, f3, f4, f5, f6, ?_⟩
    intro hst
    show (seekWaitLoop ora (s.nevents - s.eventPos + 1)
      (toSizeT (s.gpos + off)) s).readSize = s.readSize
    rw [seekWaitLoop_err hst]
  | fromEnd =>
    obtain ⟨f1, f2, f3, f4, f5, f6⟩ := seekWaitLoop_frame ora
      (s.nevents - s.eventPos + 1) (toSizeT ((s.fileSize : Int) - off)) s
    refine ⟨f1, f2, f3, f4, f5, f6, ?_⟩
    intro hst
    show (seekWaitLoop ora (s.nevents - s.eventPos + 1)
      (toSizeT ((s.fileSize : Int) - off)) s).readSize = s.readSize
    rw [seekWaitLoop_err hst]

/-- Frame facts of every session step, with stability of idle/error
status and of read_size under them. -/
theorem step_frame {ora : Nat → Nat} {s s' : StreamState}
    (h : Step ora s s') :
    s'.nevents = s.nevents ∧ s'.fileSize = s.fileSize ∧ s'.buf = s.buf ∧
    s.eventPos ≤ s'.eventPos ∧
    (s.status.toInt ≤ 0 →
      s'.status = s.status ∧ s'.readSize = s.readSize) := by
  cases h with
  | env henv =>
    refine ⟨rfl, rfl, rfl, le_refl _, ?_⟩
    intro hst
    have hfacts := envstep_facts henv
    rcases hfacts.1 with h1 | h1 <;> rw [h1] at hst <;>
      simp [status_code.toInt] at hst
  | wnb =>
    obtain ⟨f1, f2, f3, f4, f5, f6⟩ := wnb_frame ora s
    refine ⟨f4, f5, f3, f6, ?_⟩
    intro hst
    rw [wnb_err _ hst]
    exact ⟨rfl, rfl⟩
  | seek off dir =>
    obtain ⟨f1, f2, f3, f4, f5, f6, f7⟩ := seekoff_frame ora off dir s
    exact ⟨f4, f5, f3, f6, fun hst => ⟨f1, f7 hst⟩⟩
  | read count =>
    obtain ⟨f1, f2, f3, f4, f5, f6, f7⟩ := xsgetnLoop_frame ora
      (count + s.nevents + 1) count s
    exact ⟨f4, f5, f3, f6, fun hst => ⟨f1, f7 hst⟩⟩
  | waitall hterm =>
    rename_i fin
    cases hfu : s.futureValid with
    | false =>
      rw [wait_invalid hfu]
      exact ⟨rfl, rfl, rfl, le_refl _, fun _ => ⟨rfl, rfl⟩⟩
    | true =>
      rw [wait_valid hfu]
      obtain ⟨f1, f2, f3, f4, f5, f6⟩ := drainLoop_frame ora
        (s.nevents - s.eventPos + 1)
        { s with status := fin, futureValid := false }
      refine ⟨f4, f5, f3, f6, ?_⟩
      intro hst
      have hfin : fin = s.status := rtg_env_stable hterm.1 hst
      have hs1 : (({ s with status := fin, futureValid := false } :
          StreamState)).status.toInt ≤ 0 := by
        show fin.toInt ≤ 0
        rw [hfin]
        exact hst
      constructor
      · rw [f1]
        exact hfin
      · rw [drainLoop_err hs1]

/-- Invariants hold right after a successful open. -/
theorem open_inv (C L : Nat) (ora content : Nat → Nat) :
    DataInv C L ora (open' true C (some L) content).1 ∧
      FvInv L (open' true C (some L) content).1 := by
  by_cases hL : L = 0
  · subst hL
    refine ⟨⟨rfl, by show (0 : Nat) = nchunks C 0; simp [nchunks],
      le_refl _, rfl, le_refl _⟩, ?_, ?_⟩
    · intro _ _
      rfl
    · intro h1
      rcases h1 with h1 | h1 <;> exact status_code.noConfusion h1
  · have heq : (open' true C (some L) content).1 = { initState with fileSize := L, nevents := nchunks C L, status := .launched, futureValid := true, buf := content } := by
      simp [open', hL]
    rw [heq]
    refine ⟨⟨rfl, rfl, Nat.zero_le _, rfl, Nat.zero_le _⟩, ?_, ?_⟩
    · intro h1 _
      cases h1
    · intro _
      rfl

/-- Both invariants hold in every reachable session state. -/
theorem reach_inv {C L : Nat} {ora content : Nat → Nat} {s : StreamState}
    (hC : 0 < C) (hora : LegalOracle C L ora)
    (h : Reachable C L ora content s) :
    DataInv C L ora s ∧ FvInv L s := by
  unfold Reachable at h
  induction h with
  | refl => exact open_inv C L ora content
  | tail hsteps hstep ih =>
    obtain ⟨hd, hf⟩ := ih
    obtain ⟨hd2, hf2, _⟩ := step_pres hC hora hstep hd hf
    exact ⟨hd2, hf2⟩

/-- wait() never leaves the future flag set. -/
theorem wait_fv_false {fin : status_code} {ora : Nat → Nat}
    {s : StreamState} :
    (DStorageStreamBuf.wait fin ora s).1.futureValid = false := by
  cases hfu : s.futureValid with
  | true =>
    rw [wait_valid hfu]
    exact (drainLoop_frame ora _ _).2.1
  | false =>
    rw [wait_invalid hfu]
    exact hfu

/-- If wait() returns true, the resulting status is completed. -/
theorem wait_true_status {fin : status_code} {ora : Nat → Nat}
    {s : StreamState} (h : (DStorageStreamBuf.wait fin ora s).2 = true) :
    (DStorageStreamBuf.wait fin ora s).1.status = .completed := by
  cases hfu : s.futureValid with
  | true =>
    rw [wait_valid hfu] at h ⊢
    exact of_decide_eq_true h
  | false =>
    rw [wait_invalid hfu] at h ⊢
    exact of_decide_eq_true h

end DStorageLemmas

section Claims

open DStorageStreamBuf

/-- Claim C10: is_open() returns true exactly for the statuses launched,
reading and completed (state >= launched); in particular it is false for
the idle status and for every error status, and false after any open()
that returned false. -/
theorem C10_is_open_iff :
    (∀ st : status_code, is_open st = true ↔
      (st = .launched ∨ st = .reading ∨ st = .completed)) ∧
    (∀ (factory : Bool) (C : Nat) (q : Option Nat) (content : Nat → Nat),
      (open' factory C q content).2 = false →
      is_open (open' factory C q content).1.status = false) := by
  constructor
  · intro st
    cases st <;> simp [is_open, status_code.toInt]
  · intro factory C q content h
    cases factory with
    | false => rfl
    | true =>
      cases q with
      | none => rfl
      | some L =>
        by_cases hL : L = 0
        · subst hL
          simp [open'] at h
        · simp [open', hL] at h

/-- Witness for C10 at a failed open (factory unavailable). -/
theorem C10_witness :
    is_open (open' false 4 (some 8) (fun _ => 0)).1.status = false :=
  C10_is_open_iff.2 false 4 (some 8) (fun _ => 0) rfl

/-- Claim C5: opening an existing empty file (size query yields 0)
succeeds, leaves the session completed with read_size 0, and a subsequent
wait_next_block returns false. -/
theorem C5_empty_file (C : Nat) (content ora : Nat → Nat) :
    (open' true C (some 0) content).2 = true ∧
    (open' true C (some 0) content).1.status = .completed ∧
    read_size (open' true C (some 0) content).1 = 0 ∧
    (wait_next_block ora (open' true C (some 0) content).1).2 = false :=
  ⟨rfl, rfl, rfl, rfl⟩

/-- The session state right after opening a file of 8 bytes with chunk
size 4 (two chunks). -/
def sessionAfterOpen : StreamState :=
  (open' true 4 (some 8) (fun _ => 0)).1

/-- sessionAfterOpen after the background transfer finished before the
consumer performed any wait: status completed, read_size still 0. -/
def completedEarly : StreamState :=
  { sessionAfterOpen with status := .completed }

theorem completedEarly_reachable (ora : Nat → Nat) :
    Relation.ReflTransGen (Step ora) sessionAfterOpen completedEarly :=
  Relation.ReflTransGen.tail
    (Relation.ReflTransGen.tail Relation.ReflTransGen.refl
      (show Step ora sessionAfterOpen
          { sessionAfterOpen with status := .reading } from
        Step.env EnvStatusStep.submit))
    (show Step ora { sessionAfterOpen with status := .reading }
        completedEarly from
      Step.env EnvStatusStep.finish)

/-- Claim C1 counterexample: in the session on an 8-byte file with chunk
size 4, after the background transfer completes but before the consumer
performs any wait, the status is the terminal completed status while
read_size (0) differs from file_size (8) — refuting the claimed
equivalence of read_size = file_size with the completed state. -/
theorem C1_counterexample :
    LegalOracle 4 8 (signalVal 4 8) ∧
    Reachable 4 8 (signalVal 4 8) (fun _ => 0) completedEarly ∧
    completedEarly.status = .completed ∧
    read_size completedEarly ≠ file_size completedEarly :=
  ⟨by unfold LegalOracle; decide, completedEarly_reachable _, rfl, by decide⟩

/-- Claim C1 (amended): in every reachable state of a session,
0 ≤ read_size ≤ file_size; read_size never decreases across any session
step (wait_next_block, seek, read, wait, or a background status change);
and whenever wait() returns true, read_size equals file_size.  (The claim
as stated fails only in that read_size = file_size and the completed
status need not coincide at intermediate moments.) -/
theorem C1_read_size_invariant (C L : Nat) (ora content : Nat → Nat)
    (s : StreamState) (hC : 0 < C) (hora : LegalOracle C L ora)
    (hreach : Reachable C L ora content s) :
    read_size s ≤ file_size s ∧
    (∀ s', Step ora s s' → read_size s ≤ read_size s') ∧
    (∀ fin, TerminalFrom s.status fin →
      (DStorageStreamBuf.wait fin ora s).2 = true →
      read_size (DStorageStreamBuf.wait fin ora s).1 =
        file_size (DStorageStreamBuf.wait fin ora s).1) := by
  obtain ⟨hd, hf⟩ := reach_inv hC hora hreach
  refine ⟨by show s.readSize ≤ s.fileSize; rw [hd.hfs]; exact hd.hrsL, ?_, ?_⟩
  · intro s' hstep
    exact (step_pres hC hora hstep hd hf).2.2
  · intro fin hterm hret
    obtain ⟨hd2, hf2, _⟩ :=
      step_pres hC hora (Step.waitall (s := s) hterm) hd hf
    have hrsL := hf2.hfv wait_fv_false (wait_true_status hret)
    show (DStorageStreamBuf.wait fin ora s).1.readSize =
      (DStorageStreamBuf.wait fin ora s).1.fileSize
    rw [hrsL, hd2.hfs]

/-- Witness for C1 at the freshly opened two-chunk session. -/
theorem C1_witness :
    read_size sessionAfterOpen ≤ file_size sessionAfterOpen :=
  (C1_read_size_invariant 4 8 (signalVal 4 8) (fun _ => 0)
    sessionAfterOpen (by decide) (by unfold LegalOracle; decide)
    Relation.ReflTransGen.refl).1

/-- Claim C3 counterexample: completedEarly is a reachable state whose
status is terminal (completed), yet wait_next_block returns true there,
because unconsumed chunk events remain — refuting "returns false exactly
when the status is terminal". -/
theorem C3_counterexample :
    LegalOracle 4 8 (signalVal 4 8) ∧
    Reachable 4 8 (signalVal 4 8) (fun _ => 0) completedEarly ∧
    completedEarly.status = .completed ∧
    (wait_next_block (signalVal 4 8) completedEarly).2 = true :=
  ⟨by unfold LegalOracle; decide, completedEarly_reachable _, rfl, by decide⟩

/-- Claim C3 (amended): wait_next_block returns false exactly when the
sampled status is idle or an error, or when every chunk-completion event
has already been consumed; and once it has returned false, it returns
false again after every further session step. -/
theorem C3_wnb_false (ora : Nat → Nat) (s : StreamState) :
    ((wait_next_block ora s).2 = false ↔
      (s.status.toInt ≤ 0 ∨ s.nevents ≤ s.eventPos)) ∧
    ((wait_next_block ora s).2 = false →
      ∀ s', Relation.ReflTransGen (Step ora) s s' →
        (wait_next_block ora s').2 = false) := by
  have hiff : ∀ t : StreamState, (wait_next_block ora t).2 = false ↔
      (t.status.toInt ≤ 0 ∨ t.nevents ≤ t.eventPos) := by
    intro t
    rcases wnb_cases ora t with ⟨h1, heq⟩ | ⟨h1, h2, heq⟩ | ⟨h1, h2, heq⟩ <;>
      rw [heq]
    · simp [h1]
    · simp
      omega
    · simp
      omega
  refine ⟨hiff s, ?_⟩
  intro hfalse s' hsteps
  rw [hiff s']
  rw [hiff s] at hfalse
  clear hiff
  induction hsteps with
  | refl => exact hfalse
  | tail hsteps hstep ih =>
    obtain ⟨f1, f2, f3, f4, f5⟩ := step_frame hstep
    rcases ih with h | h
    · exact Or.inl (by rw [(f5 h).1]; exact h)
    · exact Or.inr (by rw [f1]; omega)

theorem range_map_shift (f : Nat → Nat) (ep d : Nat) (hd0 : 0 < d) :
    f ep :: (List.range (d - 1)).map (fun i => f (ep + 1 + i)) =
      (List.range d).map (fun i => f (ep + i)) := by
  cases d with
  | zero => omega
  | succ m =>
    simp only [Nat.add_sub_cancel]
    rw [List.range_succ_eq_map, List.map_cons, List.map_map]
    refine List.cons_eq_cons.mpr ⟨by simp, ?_⟩
    refine List.map_congr_left ?_
    intro a _
    show f (ep + 1 + a) = f (ep + (a + 1))
    congr 1
    omega

/-- Running wait_next_block to exhaustion from a state satisfying the data
invariant with an active status collects exactly the oracle values at the
remaining event indices. -/
theorem collect_spec {C L : Nat} {ora : Nat → Nat}
    (hora : LegalOracle C L ora) :
    ∀ (fuel : Nat) (s : StreamState), DataInv C L ora s →
      0 < s.status.toInt → s.nevents - s.eventPos < fuel →
      collect_blocks ora fuel s =
        (List.range (s.nevents - s.eventPos)).map
          (fun i => ora (s.eventPos + i)) := by
  intro fuel
  induction fuel with
  | zero =>
    intro s hd hpos hfuel
    omega
  | succ n ih =>
    intro s hd hpos hfuel
    unfold collect_blocks
    rcases wnb_cases ora s with ⟨h1, heq⟩ | ⟨h1, h2, heq⟩ | ⟨h1, h2, heq⟩
    · omega
    · rw [heq]
      obtain ⟨hd2, _⟩ := wnb_data_pair hora heq hd
      show ora s.eventPos :: collect_blocks ora n { s with readSize := ora s.eventPos, eventPos := s.eventPos + 1, egpos := (ora s.eventPos : Int) } = (List.range (s.nevents - s.eventPos)).map (fun i => ora (s.eventPos + i))
      rw [ih _ hd2 (show 0 < s.status.toInt from hpos)
        (show s.nevents - (s.eventPos + 1) < n by omega)]
      show ora s.eventPos ::
          (List.range (s.nevents - (s.eventPos + 1))).map
            (fun i => ora (s.eventPos + 1 + i)) =
        (List.range (s.nevents - s.eventPos)).map
          (fun i => ora (s.eventPos + i))
      have hss : s.nevents - (s.eventPos + 1) =
          s.nevents - s.eventPos - 1 := by omega
      rw [hss]
      exact range_map_shift ora s.eventPos (s.nevents - s.eventPos)
        (by omega)
    · rw [heq]
      have h0 : s.nevents - s.eventPos = 0 := by
        have := hd.hep
        omega
      rw [h0]
      rfl

/-- The read_size values observed by calling wait_next_block until it
returns false, right after open() on a file of length L with chunk size
C. -/
def observed (C L : Nat) (ora content : Nat → Nat) : List Nat :=
  collect_blocks ora (nchunks C L + 1) (open' true C (some L) content).1

/-- Claim C2 counterexample: for an 8-byte file with chunk size 4 and the
legal fast-engine oracle whose fence is already at 8 when the first event
wait returns, the observed read_size sequence is [8, 8] — not the claimed
[4, 8], and not strictly increasing. -/
theorem C2_counterexample :
    LegalOracle 4 8 (fun _ => 8) ∧
    observed 4 8 (fun _ => 8) (fun _ => 0) = [8, 8] ∧
    observed 4 8 (fun _ => 8) (fun _ => 0) ≠ chunkSeq 4 8 := by
  refine ⟨by unfold LegalOracle; decide, by decide, by decide⟩

/-- Claim C2 (amended): for a file of length L > 0 read with chunk size
C, the observed read_size sequence has exactly ceil(L/C) entries, is
non-decreasing, its k-th entry lies between min((k+1)*C, L) and L, and its
last entry is exactly L; it equals C, 2C, ..., L exactly when every wait
observes just the awaited chunk's completion signal (in-order delivery).
(As originally stated — exactly C, 2C, ..., L for every run, strictly
increasing — the claim fails when the engine runs ahead of the consumer.)
-/
theorem C2_read_size_sequence (C L : Nat) (ora content : Nat → Nat)
    (hC : 0 < C) (hL : 0 < L) (hora : LegalOracle C L ora) :
    (observed C L ora content).length = nchunks C L ∧
    List.Chain' (· ≤ ·) (observed C L ora content) ∧
    (∀ k, k < nchunks C L →
      signalVal C L k ≤ (observed C L ora content).getD k 0 ∧
      (observed C L ora content).getD k 0 ≤ L) ∧
    (observed C L ora content).getD (nchunks C L - 1) 0 = L ∧
    (ora = signalVal C L → observed C L ora content = chunkSeq C L) := by
  have hL' : L ≠ 0 := by omega
  have hn : 0 < nchunks C L := by
    by_contra hcon
    have := (nchunks_eq_zero_iff hC).mp (Nat.eq_zero_of_not_pos hcon)
    omega
  have hobs : observed C L ora content =
      (List.range (nchunks C L)).map ora := by
    unfold observed
    rw [show (open' true C (some L) content).1 = { initState with fileSize := L, nevents := nchunks C L, status := .launched, futureValid := true, buf := content } from by simp [open', hL']]
    rw [collect_spec hora _ _
      ⟨rfl, rfl, Nat.zero_le _, rfl, Nat.zero_le _⟩
      (show (0 : Int) < status_code.launched.toInt by decide)
      (show nchunks C L - 0 < nchunks C L + 1 by omega)]
    show (List.range (nchunks C L - 0)).map (fun i => ora (0 + i)) =
      (List.range (nchunks C L)).map ora
    simp
  rw [hobs]
  refine ⟨by simp, ?_, ?_, ?_, ?_⟩
  · rw [List.chain'_map]
    cases hnc : nchunks C L with
    | zero => simp
    | succ m =>
      rw [List.chain'_range_succ]
      intro k hk
      exact ora_mono hora (by omega)
  · intro k hk
    have hlen : k < ((List.range (nchunks C L)).map ora).length := by
      simpa using hk
    rw [List.getD_eq_getElem _ _ hlen]
    simp only [List.getElem_map, List.getElem_range]
    exact ⟨ora_ge_signal hora hk, ora_le_L hora hk⟩
  · have hk : nchunks C L - 1 < nchunks C L := by omega
    have hlen : nchunks C L - 1 <
        ((List.range (nchunks C L)).map ora).length := by
      simpa using hk
    rw [List.getD_eq_getElem _ _ hlen]
    simp only [List.getElem_map, List.getElem_range]
    exact ora_last hC hora hL
  · intro hoe
    rw [hoe]
    rfl

/-- Witness for C2 at the two-chunk session with in-order delivery. -/
theorem C2_witness :
    observed 4 8 (signalVal 4 8) (fun _ => 0) = chunkSeq 4 8 :=
  (C2_read_size_sequence 4 8 (signalVal 4 8) (fun _ => 0) (by decide)
    (by decide) (by unfold LegalOracle; decide)).2.2.2.2 rfl

/-- Witness for C3 at the drained empty-file session. -/
theorem C3_witness :
    (wait_next_block (fun _ => 0)
      (open' true 4 (some 0) (fun _ => 0)).1).2 = false :=
  (C3_wnb_false (fun _ => 0) (open' true 4 (some 0) (fun _ => 0)).1).2
    rfl _ Relation.ReflTransGen.refl

/-- Claim C4: seekoff with an absolute offset on an active session waits
until read_size covers min(offset, file_size) (enough chunks to satisfy
the offset, or the whole transfer); the returned position is the target
clamped to read_size; in particular, in a completed session with
offset > file_size the position is clamped to exactly file_size. -/
theorem C4_seek_clamps (C L : Nat) (ora content : Nat → Nat)
    (s : StreamState) (off : Int) (hC : 0 < C)
    (hora : LegalOracle C L ora) (hreach : Reachable C L ora content s)
    (hact : 0 < s.status.toInt) (hoff0 : 0 ≤ off)
    (hoff64 : off < 2 ^ 64) :
    min off.toNat L ≤ (seekoff ora off SeekDir.beg s).1.readSize ∧
    (seekoff ora off SeekDir.beg s).2 =
      min off ((seekoff ora off SeekDir.beg s).1.readSize : Int) ∧
    ((L : Int) < off → (seekoff ora off SeekDir.beg s).2 = (L : Int)) := by
  obtain ⟨hd, hf⟩ := reach_inv hC hora hreach
  have hdist : toSizeT off = off.toNat := by
    unfold toSizeT
    rw [Int.emod_eq_of_lt hoff0 hoff64]
  obtain ⟨hd1, hp1, hg1, hpost⟩ := seekWaitLoop_spec hora
    (s.nevents - s.eventPos + 1) (toSizeT off) s hd
  have hpost2 : toSizeT off ≤
      (seekWaitLoop ora (s.nevents - s.eventPos + 1) (toSizeT off) s).readSize ∨
      (seekWaitLoop ora (s.nevents - s.eventPos + 1) (toSizeT off) s).eventPos =
        (seekWaitLoop ora (s.nevents - s.eventPos + 1) (toSizeT off) s).nevents := by
    rcases hpost (by omega) with h | h | h
    · exact Or.inl h
    · exact Or.inr h
    · omega
  refine ⟨?_, rfl, ?_⟩
  · show min off.toNat L ≤
      (seekWaitLoop ora (s.nevents - s.eventPos + 1) (toSizeT off) s).readSize
    rcases hpost2 with h | h
    · rw [← hdist]
      exact le_trans (min_le_left _ _) h
    · rw [drained_readSize hC hora hd1 h]
      exact min_le_right _ _
  · intro hLo
    have hrsL := hd1.hrsL
    have h2 : (seekWaitLoop ora (s.nevents - s.eventPos + 1)
        (toSizeT off) s).readSize = L := by
      rcases hpost2 with h | h
      · have h3 : off.toNat ≤ (seekWaitLoop ora
            (s.nevents - s.eventPos + 1) (toSizeT off) s).readSize := by
          rw [← hdist]
          exact h
        omega
      · exact drained_readSize hC hora hd1 h
    show min off ((seekWaitLoop ora (s.nevents - s.eventPos + 1)
      (toSizeT off) s).readSize : Int) = (L : Int)
    rw [h2]
    exact min_eq_right (le_of_lt hLo)

/-- Witness for C4: a seek to 100 in the completed-transfer two-chunk
session on an 8-byte file returns position 8. -/
theorem C4_witness :
    (seekoff (signalVal 4 8) 100 SeekDir.beg sessionAfterOpen).2 =
      ((8 : Nat) : Int) :=
  (C4_seek_clamps 4 8 (signalVal 4 8) (fun _ => 0) sessionAfterOpen 100
    (by decide) (by unfold LegalOracle; decide)
    Relation.ReflTransGen.refl (by decide) (by decide)
    (by decide)).2.2 (by decide)

theorem xsgetnLoop_full (ora : Nat → Nat) (fuel remain : Nat)
    (s : StreamState) (hr : remain ≠ 0)
    (hfull : remain ≤ toSizeT ((s.readSize : Int) - s.gpos)) :
    xsgetnLoop ora (fuel + 1) remain s =
      ({ s with gpos := s.gpos + (remain : Int), egpos := (s.readSize : Int) }, 0,
        (List.range remain).map fun (i : Nat) => s.buf (s.gpos + (i : Int)).toNat) := by
  unfold xsgetnLoop
  rw [if_neg hr]
  simp only [min_eq_left hfull, Nat.sub_self, reduceIte]

theorem xsgetnLoop_partial (ora : Nat → Nat) (fuel remain : Nat)
    (s : StreamState) (hr : remain ≠ 0)
    (hpart : toSizeT ((s.readSize : Int) - s.gpos) < remain)
    (hst : s.status.toInt ≤ 0) :
    (xsgetnLoop ora (fuel + 1) remain s).2.1 =
      remain - toSizeT ((s.readSize : Int) - s.gpos) ∧
    (xsgetnLoop ora (fuel + 1) remain s).2.2 =
      (List.range (toSizeT ((s.readSize : Int) - s.gpos))).map
        fun (i : Nat) => s.buf (s.gpos + (i : Int)).toNat := by
  unfold xsgetnLoop
  rw [if_neg hr]
  simp only [min_eq_right (le_of_lt hpart), underflow]
  rw [if_neg (by omega : ¬ remain - toSizeT ((s.readSize : Int) - s.gpos) = 0)]
  rw [wnb_err { s with gpos := s.gpos + ((toSizeT ((s.readSize : Int) - s.gpos)) : Int), egpos := (s.readSize : Int) } hst]
  exact ⟨rfl, rfl⟩

/-- Claim C6: after a mid-transfer engine error the session is in the
terminal error_unknown state and every further session step keeps that
status, never decreases read_size and never touches the buffer; a read
lying entirely within [0, read_size) still returns its full count and the
exact buffer bytes; a read extending beyond read_size returns the partial
count read_size - position (zero when the position is at read_size)
instead of failing. -/
theorem C6_error_semantics (ora : Nat → Nat) (s : StreamState)
    (herr : s.status = .error_unknown) (hg0 : 0 ≤ s.gpos)
    (hgr : s.gpos.toNat ≤ s.readSize) (hr64 : s.readSize < 2 ^ 64) :
    (∀ s', Step ora s s' →
      s'.status = .error_unknown ∧ s.readSize ≤ s'.readSize ∧
      s'.buf = s.buf) ∧
    (∀ n, s.gpos.toNat + n ≤ s.readSize →
      (xsgetn ora n s).2.1 = n ∧
      (xsgetn ora n s).2.2 =
        (List.range n).map (fun i => s.buf (s.gpos.toNat + i))) ∧
    (∀ n, s.readSize < s.gpos.toNat + n →
      (xsgetn ora n s).2.1 = s.readSize - s.gpos.toNat) := by
  have hst : s.status.toInt ≤ 0 := by
    rw [herr]
    decide
  have havail : toSizeT ((s.readSize : Int) - s.gpos) =
      s.readSize - s.gpos.toNat := by
    unfold toSizeT
    have hpow : (2 : Int) ^ 64 = 18446744073709551616 := by norm_num
    have hpow2 : (2 : Nat) ^ 64 = 18446744073709551616 := by norm_num
    rw [Int.emod_eq_of_lt (by omega) (by rw [hpow]; omega)]
    omega
  refine ⟨?_, ?_, ?_⟩
  · intro s' hstep
    obtain ⟨f1, f2, f3, f4, f5⟩ := step_frame hstep
    obtain ⟨g1, g2⟩ := f5 hst
    exact ⟨g1.trans herr, le_of_eq g2.symm, f3⟩
  · intro n hn
    rcases Nat.eq_zero_or_pos n with hn0 | hn0
    · subst hn0
      exact ⟨rfl, rfl⟩
    · have hfull : n ≤ toSizeT ((s.readSize : Int) - s.gpos) := by
        rw [havail]
        omega
      constructor
      · show n - (xsgetnLoop ora (n + s.nevents + 1) n s).2.1 = n
        rw [xsgetnLoop_full ora (n + s.nevents) n s (by omega) hfull]
        rfl
      · show (xsgetnLoop ora (n + s.nevents + 1) n s).2.2 =
          (List.range n).map (fun i => s.buf (s.gpos.toNat + i))
        rw [xsgetnLoop_full ora (n + s.nevents) n s (by omega) hfull]
        show (List.range n).map (fun (i : Nat) =>
            s.buf (s.gpos + (i : Int)).toNat) =
          (List.range n).map (fun i => s.buf (s.gpos.toNat + i))
        refine List.map_congr_left ?_
        intro a _
        congr 1
        omega
  · intro n hn
    have hn0 : n ≠ 0 := by omega
    have hpart : toSizeT ((s.readSize : Int) - s.gpos) < n := by
      rw [havail]
      omega
    obtain ⟨hcnt, _⟩ := xsgetnLoop_partial ora (n + s.nevents) n s hn0
      hpart hst
    show n - (xsgetnLoop ora (n + s.nevents + 1) n s).2.1 =
      s.readSize - s.gpos.toNat
    rw [hcnt, havail]
    rw [havail] at hpart
    omega

/-- A session state hit by a mid-transfer engine error after one of two
chunks completed. -/
def errState : StreamState :=
  { fileSize := 8, readSize := 4, eventPos := 1, nevents := 2,
    gpos := 0, egpos := 4, status := .error_unknown, futureValid := true,
    buf := fun i => i }

/-- Witness for C6: in errState a 10-byte read returns the 4 available
bytes. -/
theorem C6_witness :
    (xsgetn (fun _ => 0) 10 errState).2.1 = 4 :=
  (C6_error_semantics (fun _ => 0) errState rfl (by decide) (by decide)
    (by decide)).2.2 10 (by decide)

theorem growStep_le (x : Nat) : x ≤ MMapStreamBuf.growStep x := by
  unfold MMapStreamBuf.growStep MMapStreamBuf.GiB
  split <;> omega

theorem growStep_succ_le (x : Nat) (hx : 0 < x) :
    x + 1 ≤ MMapStreamBuf.growStep x := by
  unfold MMapStreamBuf.growStep MMapStreamBuf.GiB
  split <;> omega

theorem growStep_pos (x : Nat) (hx : 0 < x) :
    0 < MMapStreamBuf.growStep x := by
  unfold MMapStreamBuf.growStep MMapStreamBuf.GiB
  split <;> omega

theorem le_growStep_iterate (x : Nat) :
    ∀ k, x ≤ MMapStreamBuf.growStep^[k] x := by
  intro k
  induction k with
  | zero => exact le_refl _
  | succ m ih =>
    rw [Function.iterate_succ_apply']
    exact le_trans ih (growStep_le _)

theorem expandLoop_reach :
    ∀ (fuel size req : Nat), ∃ k,
      MMapStreamBuf.expandLoop fuel size req =
        MMapStreamBuf.growStep^[k] size := by
  intro fuel
  induction fuel with
  | zero =>
    intro size req
    exact ⟨0, rfl⟩
  | succ n ih =>
    intro size req
    unfold MMapStreamBuf.expandLoop
    by_cases h : size < req
    · rw [if_pos h]
      obtain ⟨k, hk⟩ := ih (MMapStreamBuf.growStep size) req
      exact ⟨k + 1, by rw [hk, Function.iterate_succ_apply]⟩
    · rw [if_neg h]
      exact ⟨0, rfl⟩

theorem expandLoop_suff :
    ∀ (fuel size req : Nat), 0 < size → req ≤ size + fuel →
      req ≤ MMapStreamBuf.expandLoop fuel size req := by
  intro fuel
  induction fuel with
  | zero =>
    intro size req hs hreq
    unfold MMapStreamBuf.expandLoop
    omega
  | succ n ih =>
    intro size req hs hreq
    unfold MMapStreamBuf.expandLoop
    by_cases h : size < req
    · rw [if_pos h]
      exact ih (MMapStreamBuf.growStep size) req (growStep_pos _ hs)
        (le_trans hreq (by have := growStep_succ_le size hs; omega))
    · rw [if_neg h]
      omega

theorem expandLoop_min :
    ∀ (fuel size req k : Nat),
      req ≤ MMapStreamBuf.growStep^[k] size →
      MMapStreamBuf.expandLoop fuel size req ≤
        MMapStreamBuf.growStep^[k] size := by
  intro fuel
  induction fuel with
  | zero =>
    intro size req k _
    exact le_growStep_iterate size k
  | succ n ih =>
    intro size req k hk
    unfold MMapStreamBuf.expandLoop
    by_cases h : size < req
    · rw [if_pos h]
      cases k with
      | zero =>
        exfalso
        simp at hk
        omega
      | succ m =>
        rw [Function.iterate_succ_apply] at hk ⊢
        exact ih (MMapStreamBuf.growStep size) req m hk
    · rw [if_neg h]
      exact le_growStep_iterate size k

/-- ExpandFileSize grows base along the doubling/1GiB policy to the least
policy-reachable value that is at least base + expand. -/
theorem ExpandFileSize_spec (base expand : Nat) (hb : 0 < base) :
    base + expand ≤ MMapStreamBuf.ExpandFileSize base expand ∧
    (∃ k, MMapStreamBuf.ExpandFileSize base expand =
      MMapStreamBuf.growStep^[k] base) ∧
    ∀ k, base + expand ≤ MMapStreamBuf.growStep^[k] base →
      MMapStreamBuf.ExpandFileSize base expand ≤
        MMapStreamBuf.growStep^[k] base := by
  refine ⟨?_, expandLoop_reach _ _ _, fun k hk => expandLoop_min _ _ _ k hk⟩
  exact expandLoop_suff (base + expand) base (base + expand) hb (by omega)

theorem xsputn_cap (data : List Nat) (s : MMapStreamBuf.MMapBuf) :
    (MMapStreamBuf.xsputn data s).1.cap =
      (if s.ppos + ((data.length : Nat) : Int) > (s.cap : Int) then
        MMapStreamBuf.reserve
          (MMapStreamBuf.ExpandFileSize s.cap data.length) s
      else s).cap := rfl

theorem reserve_cap {size : Nat} {s : MMapStreamBuf.MMapBuf} (h : size > s.cap) :
    (MMapStreamBuf.reserve size s).cap = size := by
  unfold MMapStreamBuf.reserve
  rw [if_pos h]

/-- Frame facts of xsputn: it only grows the capacity, writes the data at
[ppos, ppos + count) and advances the put position. -/
theorem xsputn_state (data : List Nat) (s : MMapStreamBuf.MMapBuf) :
    (MMapStreamBuf.xsputn data s).1.ppos =
      s.ppos + ((data.length : Nat) : Int) ∧
    (MMapStreamBuf.xsputn data s).1.pmax = s.pmax ∧
    (MMapStreamBuf.xsputn data s).1.isOpenF = s.isOpenF ∧
    (MMapStreamBuf.xsputn data s).1.modeOut = s.modeOut ∧
    (MMapStreamBuf.xsputn data s).1.modeIn = s.modeIn ∧
    ∀ i : Nat, (MMapStreamBuf.xsputn data s).1.contents i =
      if s.ppos ≤ (i : Int) ∧ (i : Int) < s.ppos + ((data.length : Nat) : Int)
      then data.getD ((i : Int) - s.ppos).toNat 0 else s.contents i := by
  simp only [MMapStreamBuf.xsputn, MMapStreamBuf.reserve]
  split
  · split
    · exact ⟨rfl, rfl, rfl, rfl, rfl, fun i => rfl⟩
    · exact ⟨rfl, rfl, rfl, rfl, rfl, fun i => rfl⟩
  · exact ⟨rfl, rfl, rfl, rfl, rfl, fun i => rfl⟩

/-- Claim C7: a write whose destination range exceeds the mapped capacity
first grows the capacity by repeated doubling below 1 GiB and flat 1 GiB
increments above, stopping at the least such size at least capacity +
count (in particular sufficient for the destination range), and the copy
changes no byte outside the written range [ppos, ppos + count). -/
theorem C7_growth_policy (s : MMapStreamBuf.MMapBuf) (data : List Nat)
    (hover : (s.cap : Int) < s.ppos + ((data.length : Nat) : Int))
    (hcap : 0 < s.cap) (hpc : s.ppos ≤ (s.cap : Int)) :
    (∃ k, (MMapStreamBuf.xsputn data s).1.cap =
      MMapStreamBuf.growStep^[k] s.cap) ∧
    s.cap + data.length ≤ (MMapStreamBuf.xsputn data s).1.cap ∧
    (∀ k, s.cap + data.length ≤ MMapStreamBuf.growStep^[k] s.cap →
      (MMapStreamBuf.xsputn data s).1.cap ≤
        MMapStreamBuf.growStep^[k] s.cap) ∧
    s.ppos + ((data.length : Nat) : Int) ≤
      (((MMapStreamBuf.xsputn data s).1.cap : Nat) : Int) ∧
    ∀ i : Nat,
      ((i : Int) < s.ppos ∨
        s.ppos + ((data.length : Nat) : Int) ≤ (i : Int)) →
      (MMapStreamBuf.xsputn data s).1.contents i = s.contents i := by
  obtain ⟨hsuff, hreach, hmin⟩ := ExpandFileSize_spec s.cap data.length hcap
  have hcap' : (MMapStreamBuf.xsputn data s).1.cap =
      MMapStreamBuf.ExpandFileSize s.cap data.length := by
    rw [xsputn_cap, if_pos (by omega), reserve_cap (by omega)]
  obtain ⟨h1, h2, h3, h4, h5, h6⟩ := xsputn_state data s
  refine ⟨by rw [hcap']; exact hreach, by rw [hcap']; exact hsuff,
    fun k hk => by rw [hcap']; exact hmin k hk, by rw [hcap']; omega, ?_⟩
  intro i hi
  rw [h6 i, if_neg (by omega)]

/-- Witness for C7: writing 5 bytes at position 4 of a 4-byte capacity
grows the capacity to 16 (4 -> 8 -> 16) which covers position 9. -/
theorem C7_witness :
    4 + 5 ≤ (MMapStreamBuf.xsputn [1, 2, 3, 4, 5]
      { isOpenF := true, modeOut := true, modeIn := false, cap := 4,
        ppos := 4, gpos := 0, pmax := 0, fileLen := 4,
        contents := fun _ => 0 }).1.cap ∧
    (MMapStreamBuf.xsputn [1, 2, 3, 4, 5]
      { isOpenF := true, modeOut := true, modeIn := false, cap := 4,
        ppos := 4, gpos := 0, pmax := 0, fileLen := 4,
        contents := fun _ => 0 }).1.cap ≤
      MMapStreamBuf.growStep^[2] 4 := by
  have h := (C7_growth_policy
    { isOpenF := true, modeOut := true, modeIn := false, cap := 4,
      ppos := 4, gpos := 0, pmax := 0, fileLen := 4,
      contents := fun _ => 0 } [1, 2, 3, 4, 5] (by decide) (by decide)
    (by decide))
  exact ⟨h.2.1, h.2.2.1 2 (by decide)⟩

/-- Claim C8 counterexample: after writing 5 bytes to a freshly opened
write-mode mapped stream, an explicit close() leaves the backing file at
the mapped capacity (16 MiB), not at max(high_water_mark, cursor) = 5 —
so close() does not truncate; only destruction does. -/
theorem C8_counterexample :
    (MMapStreamBuf.close
      (MMapStreamBuf.xsputn [1, 2, 3, 4, 5]
        MMapStreamBuf.open_write).1).fileLen = 1024 * 1024 * 16 ∧
    max (MMapStreamBuf.xsputn [1, 2, 3, 4, 5]
        MMapStreamBuf.open_write).1.pmax
      (toSizeT (MMapStreamBuf.xsputn [1, 2, 3, 4, 5]
        MMapStreamBuf.open_write).1.ppos) = 5 ∧
    (MMapStreamBuf.close
      (MMapStreamBuf.xsputn [1, 2, 3, 4, 5]
        MMapStreamBuf.open_write).1).fileLen ≠
      max (MMapStreamBuf.xsputn [1, 2, 3, 4, 5]
        MMapStreamBuf.open_write).1.pmax
        (toSizeT (MMapStreamBuf.xsputn [1, 2, 3, 4, 5]
          MMapStreamBuf.open_write).1.ppos) := by
  refine ⟨rfl, by decide, by decide⟩

/-- Claim C8 (amended): in write mode every seek updates the high-water
mark to max(pmax, previous put cursor); destruction while still open in
write mode truncates the backing file to max(pmax, current cursor), so a
backward seek never shrinks the eventual on-disk length; an explicit
close() releases the mapping without truncating (the file keeps the
length the mapping extended it to). -/
theorem C8_high_water_mark (s : MMapStreamBuf.MMapBuf) (off : Int)
    (dir : DStorageStreamBuf.SeekDir) (hout : s.modeOut = true)
    (hopen : s.isOpenF = true) :
    (MMapStreamBuf.seekoff off dir s).1.pmax =
      max s.pmax (toSizeT s.ppos) ∧
    (MMapStreamBuf.destruct s).fileLen = max s.pmax (toSizeT s.ppos) ∧
    toSizeT s.ppos ≤
      (MMapStreamBuf.destruct (MMapStreamBuf.seekoff off dir s).1).fileLen ∧
    (MMapStreamBuf.close s).fileLen = s.fileLen := by
  have hseek : (MMapStreamBuf.seekoff off dir s).1.pmax =
      max s.pmax (toSizeT s.ppos) ∧
      (MMapStreamBuf.seekoff off dir s).1.isOpenF = s.isOpenF ∧
      (MMapStreamBuf.seekoff off dir s).1.modeOut = s.modeOut := by
    unfold MMapStreamBuf.seekoff
    rw [if_pos hout]
    exact ⟨rfl, rfl, rfl⟩
  have hdes : (MMapStreamBuf.destruct s).fileLen =
      max s.pmax (toSizeT s.ppos) := by
    unfold MMapStreamBuf.destruct
    rw [if_pos (by rw [hout, hopen]; rfl)]
  refine ⟨hseek.1, hdes, ?_, rfl⟩
  have hdes2 : (MMapStreamBuf.destruct
      (MMapStreamBuf.seekoff off dir s).1).fileLen =
      max (MMapStreamBuf.seekoff off dir s).1.pmax
        (toSizeT (MMapStreamBuf.seekoff off dir s).1.ppos) := by
    unfold MMapStreamBuf.destruct
    rw [if_pos (by rw [hseek.2.1, hseek.2.2, hout, hopen]; rfl)]
  rw [hdes2, hseek.1]
  exact le_trans (le_max_right _ _) (le_max_left _ _)

/-- Witness for C8 on the 5-bytes-written stream with a backward seek to
position 1. -/
theorem C8_witness :
    toSizeT (MMapStreamBuf.xsputn [1, 2, 3, 4, 5]
      MMapStreamBuf.open_write).1.ppos ≤
    (MMapStreamBuf.destruct
      (MMapStreamBuf.seekoff 1 DStorageStreamBuf.SeekDir.beg
        (MMapStreamBuf.xsputn [1, 2, 3, 4, 5]
          MMapStreamBuf.open_write).1).1).fileLen :=
  (C8_high_water_mark
    (MMapStreamBuf.xsputn [1, 2, 3, 4, 5] MMapStreamBuf.open_write).1
    1 DStorageStreamBuf.SeekDir.beg rfl rfl).2.2.1

theorem toSizeT_natCast (a : Nat) (h : a < 2 ^ 64) :
    toSizeT ((a : Nat) : Int) = a := by
  unfold toSizeT
  have hpowN : (2 : Nat) ^ 64 = 18446744073709551616 := by norm_num
  have hpowI : (2 : Int) ^ 64 = 18446744073709551616 := by norm_num
  rw [hpowN] at h
  rw [Int.emod_eq_of_lt (by omega) (by rw [hpowI]; omega)]
  omega

/-- State facts after a sequence of writes from a fresh write-mode
stream: the cursor is at the total byte count, the high-water mark is
still 0, the stream is open for writing, and the mapping holds exactly
the concatenation of the written data below the cursor. -/
theorem writeAll_facts (ws : List (List Nat)) :
    (MMapStreamBuf.writeAll ws MMapStreamBuf.open_write).ppos =
      (((ws.map List.length).sum : Nat) : Int) ∧
    (MMapStreamBuf.writeAll ws MMapStreamBuf.open_write).pmax = 0 ∧
    (MMapStreamBuf.writeAll ws MMapStreamBuf.open_write).isOpenF = true ∧
    (MMapStreamBuf.writeAll ws MMapStreamBuf.open_write).modeOut = true ∧
    ∀ i : Nat, i < (ws.map List.length).sum →
      (MMapStreamBuf.writeAll ws MMapStreamBuf.open_write).contents i =
        ws.flatten.getD i 0 := by
  induction ws using List.reverseRecOn with
  | nil =>
    exact ⟨rfl, rfl, rfl, rfl, fun i hi => absurd hi (by simp)⟩
  | append_singleton ws w ih =>
    have hw : MMapStreamBuf.writeAll (ws ++ [w]) MMapStreamBuf.open_write =
        (MMapStreamBuf.xsputn w
          (MMapStreamBuf.writeAll ws MMapStreamBuf.open_write)).1 := by
      unfold MMapStreamBuf.writeAll
      rw [List.foldl_append]
      rfl
    obtain ⟨ih1, ih2, ih3, ih4, ih5⟩ := ih
    obtain ⟨x1, x2, x3, x4, x5, x6⟩ :=
      xsputn_state w (MMapStreamBuf.writeAll ws MMapStreamBuf.open_write)
    have hsum : ((ws ++ [w]).map List.length).sum =
        (ws.map List.length).sum + w.length := by
      simp
    rw [hw]
    refine ⟨?_, ?_, ?_, ?_, ?_⟩
    · rw [x1, ih1, hsum]
      push_cast
      ring
    · rw [x2, ih2]
    · rw [x3, ih3]
    · rw [x4, ih4]
    · intro i hi
      rw [hsum] at hi
      rw [x6 i, ih1]
      by_cases hlt : i < (ws.map List.length).sum
      · rw [if_neg (by omega)]
        rw [ih5 i hlt, List.flatten_append]
        rw [List.getD_append _ _ _ _
          (by rw [List.length_flatten]; simpa using hlt)]
      · have hge : (ws.map List.length).sum ≤ i := by omega
        rw [if_pos ⟨by exact_mod_cast hge, by exact_mod_cast hi⟩]
        rw [List.flatten_append]
        rw [List.getD_append_right _ _ _ _
          (by rw [List.length_flatten]; simpa using hge)]
        simp only [List.flatten_cons, List.flatten_nil, List.append_nil,
          List.length_flatten]
        have hidx : (((i : Nat) : Int) -
            (((ws.map List.length).sum : Nat) : Int)).toNat =
            i - (ws.map List.length).sum := by
          omega
        rw [hidx]

/-- Claim C9: writing any sequence of byte blocks (total W bytes, no
backward seeks) to a fresh growable write stream, destroying it (which
truncates), and re-opening the resulting file in read mode gives an
on-disk size of exactly W, and a W-byte read returns exactly the written
bytes in order. -/
theorem C9_roundtrip (ws : List (List Nat))
    (hW : (ws.map List.length).sum < 2 ^ 64) :
    (MMapStreamBuf.destruct
      (MMapStreamBuf.writeAll ws MMapStreamBuf.open_write)).fileLen =
      (ws.map List.length).sum ∧
    (MMapStreamBuf.xsgetn (ws.map List.length).sum
      (MMapStreamBuf.open_read
        (MMapStreamBuf.destruct
          (MMapStreamBuf.writeAll ws MMapStreamBuf.open_write)).fileLen
        (MMapStreamBuf.destruct
          (MMapStreamBuf.writeAll ws
            MMapStreamBuf.open_write)).contents)).2.1 =
      (ws.map List.length).sum ∧
    (MMapStreamBuf.xsgetn (ws.map List.length).sum
      (MMapStreamBuf.open_read
        (MMapStreamBuf.destruct
          (MMapStreamBuf.writeAll ws MMapStreamBuf.open_write)).fileLen
        (MMapStreamBuf.destruct
          (MMapStreamBuf.writeAll ws
            MMapStreamBuf.open_write)).contents)).2.2 = ws.flatten := by
  obtain ⟨w1, w2, w3, w4, w5⟩ := writeAll_facts ws
  have hguard : ((MMapStreamBuf.writeAll ws
      MMapStreamBuf.open_write).isOpenF &&
      (MMapStreamBuf.writeAll ws MMapStreamBuf.open_write).modeOut)
        = true := by
    rw [w3, w4]
    rfl
  have hfl : (MMapStreamBuf.destruct
      (MMapStreamBuf.writeAll ws MMapStreamBuf.open_write)).fileLen =
      (ws.map List.length).sum := by
    unfold MMapStreamBuf.destruct
    rw [if_pos hguard]
    show max (MMapStreamBuf.writeAll ws MMapStreamBuf.open_write).pmax
      (toSizeT (MMapStreamBuf.writeAll ws MMapStreamBuf.open_write).ppos)
        = (ws.map List.length).sum
    rw [w1, w2, toSizeT_natCast _ hW]
    exact Nat.max_eq_right (Nat.zero_le _)
  have hcont : (MMapStreamBuf.destruct
      (MMapStreamBuf.writeAll ws MMapStreamBuf.open_write)).contents =
      (MMapStreamBuf.writeAll ws MMapStreamBuf.open_write).contents := by
    unfold MMapStreamBuf.destruct
    rw [if_pos hguard]
  rw [hfl, hcont]
  have hts : toSizeT ((((ws.map List.length).sum : Nat) : Int) - 0) =
      (ws.map List.length).sum := by
    have h0 : ((((ws.map List.length).sum : Nat) : Int) - 0) =
        (((ws.map List.length).sum : Nat) : Int) := by
      omega
    rw [h0, toSizeT_natCast _ hW]
  refine ⟨rfl, ?_, ?_⟩
  · show min (ws.map List.length).sum
      (toSizeT ((((ws.map List.length).sum : Nat) : Int) - 0)) =
        (ws.map List.length).sum
    rw [hts]
    exact min_self _
  · show (List.range (min (ws.map List.length).sum
      (toSizeT ((((ws.map List.length).sum : Nat) : Int) - 0)))).map
        (fun (i : Nat) =>
          (MMapStreamBuf.writeAll ws MMapStreamBuf.open_write).contents
            (((0 : Int) + (i : Int)).toNat)) = ws.flatten
    rw [hts, min_self]
    apply List.ext_getElem
    · simp [List.length_flatten]
    · intro i h1 h2
      simp only [List.getElem_map, List.getElem_range]
      have hi0 : (((0 : Int) + ((i : Nat) : Int))).toNat = i := by
        omega
      rw [hi0]
      have hiW : i < (ws.map List.length).sum := by
        simpa using h1
      rw [w5 i hiW]
      exact List.getD_eq_getElem _ _ h2

/-- Witness for C9 with the write sequence [1,2] then [3]. -/
theorem C9_witness :
    (MMapStreamBuf.xsgetn 3
      (MMapStreamBuf.open_read
        (MMapStreamBuf.destruct
          (MMapStreamBuf.writeAll [[1, 2], [3]]
            MMapStreamBuf.open_write)).fileLen
        (MMapStreamBuf.destruct
          (MMapStreamBuf.writeAll [[1, 2], [3]]
            MMapStreamBuf.open_write)).contents)).2.2 = [1, 2, 3] :=
  (C9_roundtrip [[1, 2], [3]] (by decide)).2.2

end Claims

end ist
